import Mathlib

/-!
Shallow embedding of the package-repository client in `script/apk-get.py`
(class `Repo` and the helper `expand_name`), together with proofs about its
index store, cache manager, install manager, query engine and name resolver.

Modelling conventions:
* Python `dict` values are association lists `List (String × α)`; `dict`
  update preserves the position of an existing key and appends a fresh key,
  matching CPython's insertion-order semantics (`dictInsert`).
* The filesystem pieces each operation touches are explicit state records;
  fallible operations return an explicit outcome value, and operations that
  can raise have a dedicated `raised` outcome.
* Network I/O (`urlopen`) is an oracle parameter: for artifact downloads a
  function from the artifact's repository path to a `NetDl` value — a
  `URLError` while opening the connection, a read-time failure after part
  of the body was written, or a complete stream of a given byte length;
  for the index document an explicit `NetResult` value.
* `json.load` is an oracle `parse : String → Option (List Entry)`
  (`none` = a parse error, which raises in the source).
* `re.compile(pattern).search` is an oracle predicate `String → Bool`; none
  of the verified properties depend on regex semantics.
-/

namespace ApkGet

/-! ### Python dictionaries as association lists -/

/-- Lookup in a Python dict modelled as an association list. -/
def dictLookup (d : List (String × α)) (k : String) : Option α :=
  (d.find? (fun p => p.1 = k)).map (fun p => p.2)

/-- Python `d[k] = v`: replace in place when the key exists, append otherwise. -/
def dictInsert (d : List (String × α)) (k : String) (v : α) : List (String × α) :=
  if (d.find? (fun p => p.1 = k)).isSome then
    d.map (fun p => if p.1 = k then (k, v) else p)
  else
    d ++ [(k, v)]

/-- Removal of a key (`del d[k]`, `os.unlink`, `shutil.rmtree` of one subdir). -/
def dictRemove (d : List (String × α)) (k : String) : List (String × α) :=
  d.filter (fun p => p.1 ≠ k)

/-! ### Python string comparison and `sorted`

CPython compares strings lexicographically by code point; `sorted` sorts
ascending.  The comparator is spelled out on the character lists so that all
proofs compute inside the kernel. -/

/-- Code-point comparison of characters. -/
def charLt (a b : Char) : Bool := a.val < b.val

/-- Lexicographic comparison of character lists (CPython `str.__lt__`). -/
def charListLt : List Char → List Char → Bool
  | [], [] => false
  | [], _ :: _ => true
  | _ :: _, [] => false
  | a :: as, b :: bs =>
    if charLt a b then true
    else if charLt b a then false
    else charListLt as bs

/-- CPython `a < b` on strings. -/
def strLt (a b : String) : Bool := charListLt a.data b.data

/-- Insertion of one element into an ascending list (helper for `pySort`). -/
def pyInsert (a : String) : List String → List String
  | [] => [a]
  | b :: l => if strLt b a then b :: pyInsert a l else a :: b :: l

/-- Python `sorted` on a list of strings (ascending, lexicographic). -/
def pySort : List String → List String
  | [] => []
  | a :: l => pyInsert a (pySort l)

/-! ### The index data model (`Repo.index`, spec section 3)

Per the data-model invariant, every entry reachable from the index carries
`package`, `version`, `path` and `size`; `vercode` drives latest-version
resolution and `title`/`path` are the searchable text fields. -/

/-- A package index entry (one JSON object of the remote index document). -/
structure Entry where
  package : String
  version : String
  vercode : Int
  title : String
  path : String
  size : Nat
deriving DecidableEq, Repr

/-- Identity of an entry: `'-'.join([item['package'], item['version']])`. -/
def identityOf (e : Entry) : String := e.package ++ "-" ++ e.version

/-- Body of `Repo._load_index`: build the in-memory index dict from the parsed
JSON array, keying each item by its identity. -/
def loadIndex (raw : List Entry) : List (String × Entry) :=
  raw.foldl (fun info item => dictInsert info (identityOf item) item) []

/-! ### Index store: `Repo.update`, `Repo._load_index`, `Repo.clean`

State: the content of the local index cache file `<cache_dir>/index.json`
(`none` = absent) and the in-memory index.  `Repo.update` runs

    with urlopen(self.index_url) as res:
        with open(self.index_file, 'w') as f:
            f.write(res.read().decode('utf-8'))

inside `try ... except URLError: return`.  Two network failure modes exist:
`urlopen` itself raises `URLError` (caught; nothing was written), or the
response body read fails mid-transfer.  In the second case `open(_, 'w')`
has already truncated the previous file before `res.read()` runs, and the
read-time errors (`http.client.IncompleteRead`, `ConnectionResetError`,
`socket.timeout`) are not `URLError` subclasses, so the exception escapes
the `except URLError` handler and the file is left truncated to empty. -/

/-- Outcome of one network interaction for the index document. -/
inductive NetResult where
  | connectFail
  | readFail
  | ok (body : String)
deriving DecidableEq, Repr

/-- Observable result of `Repo.update` / `Repo._load_index`: the Python
return value `None` (falsy failure signal), `True`, or a raised exception. -/
inductive LoadOutcome where
  | returnedNone
  | returnedTrue
  | raised
deriving DecidableEq, Repr

/-- State of the index store: index cache file content and in-memory index. -/
structure StoreState where
  indexFile : Option String
  memIndex  : List (String × ApkGet.Entry)
deriving DecidableEq, Repr

/-- Model of `Repo._load_index`: parse the cache file if present.  `parse` is
the `json.load` oracle; a parse failure raises in the source. -/
def loadIndexFile (parse : String → Option (List Entry)) (st : StoreState) :
    StoreState × LoadOutcome :=
  match st.indexFile with
  | none => (st, .returnedNone)
  | some content =>
    match parse content with
    | none => (st, .raised)
    | some raw => ({ st with memIndex := loadIndex raw }, .returnedTrue)

/-- Model of `Repo.update` (lines 256-266): fetch the index document into the
cache file, then reload.  On `connectFail` the `URLError` is caught before
anything is written; on `readFail` the file has already been truncated by
`open(_, 'w')` and the exception escapes; on success the file is fully
replaced and `_load_index` runs. -/
def update (parse : String → Option (List Entry)) (st : StoreState)
    (net : NetResult) : StoreState × LoadOutcome :=
  match net with
  | .connectFail => (st, .returnedNone)
  | .readFail => ({ st with indexFile := some "" }, .raised)
  | .ok body => loadIndexFile parse { st with indexFile := some body }

/-! ### `Repo.clean` (lines 243-254)

State seen by `clean`: the cache directory (`none` = absent) with its files
keyed by path relative to the cache root, and the files sitting directly in
the root directory (siblings of the cache root).  The index document lives
at `cache_dir/index.json`. -/

/-- File name of the index document inside the cache directory. -/
def indexName : String := "index.json"

/-- Observable result of `Repo.clean`. -/
inductive CleanOutcome where
  | returnedTrue
  | raised
deriving DecidableEq, Repr

/-- Root directory state for `Repo.clean`. -/
structure RootFS where
  cacheDir  : Option (List (String × String))
  rootExtra : List (String × String)
deriving DecidableEq, Repr

/-- Model of `Repo.clean`: if the cache directory exists, move the index out
to the root directory (a sibling of the cache root), delete the cache
directory, recreate it via `_ensure_dirs`, and move the index back.  If the
index file is absent the initial `os.rename` raises (and the `finally`
block's `os.rename` raises again); the cache directory is then never
deleted.  If the cache directory is absent the whole block is skipped. -/
def clean (st : RootFS) : RootFS × CleanOutcome :=
  match st.cacheDir with
  | none => (st, .returnedTrue)
  | some files =>
    match dictLookup files indexName with
    | none => (st, .raised)
    | some c =>
      -- os.rename(self.index_file, m): index moved to the root directory
      let movedOut : RootFS :=
        ⟨some (dictRemove files indexName), dictInsert st.rootExtra indexName c⟩
      -- shutil.rmtree(self.cache_dir)
      let removed : RootFS := ⟨none, movedOut.rootExtra⟩
      -- self._ensure_dirs()
      let recreated : RootFS := ⟨some [], removed.rootExtra⟩
      -- os.rename(m, self.index_file)
      (⟨some (dictInsert [] indexName c), dictRemove recreated.rootExtra indexName⟩,
        .returnedTrue)

/-- In-memory index obtained by `Repo._load_index` reading a `RootFS`
(`none` when the file is absent or `json.load` fails). -/
def loadFromRoot (parse : String → Option (List Entry)) (st : RootFS) :
    Option (List (String × Entry)) :=
  match st.cacheDir with
  | none => none
  | some files =>
    match dictLookup files indexName with
    | none => none
    | some c => (parse c).map loadIndex

/-! ### Cache manager: `Repo.is_cached`, `Repo._download`, `Repo._get_cached`,
`Repo.download`

The cache directory is a map from an artifact's repository-relative path
(`entry.path`, the key under which `_cached_path` stores it below
`cache_dir`) to the byte size of the file found there.  The download oracle
`remote : String → Option Nat` maps that same path (the URL is
`repo_url + path` with `repo_url` fixed) to the number of bytes the HTTP
response actually delivers, or `none` for a `URLError` when opening. -/

/-- Model of `Repo.is_cached` (lines 165-174): true iff the entry exists, a
file exists at its cache path, and the file size equals `entry.size`. -/
def isCached (index : List (String × Entry)) (files : List (String × Nat))
    (name : String) : Bool :=
  match dictLookup index name with
  | none => false
  | some e =>
    match dictLookup files e.path with
    | none => false
    | some sz => sz == e.size

/-- Outcome of one artifact-download network interaction (`urlopen` on the
artifact URL inside `Repo._download`): `connectFail` is a `URLError`
raised while opening the connection; `readFail written` is a network error
while reading the response body (`ConnectionResetError`,
`http.client.IncompleteRead`, `socket.timeout` — none of them `URLError`
subclasses) after `written` bytes of the stream were already written to
the destination file; `ok len` is a stream read to its end, delivering
`len` bytes in total. -/
inductive NetDl where
  | connectFail
  | readFail (written : Nat)
  | ok (len : Nat)
deriving DecidableEq, Repr

/-- Observable result of `Repo._download` and of `Repo.download`: `True`,
the falsy `None` after the caught `URLError`, or a propagating
exception. -/
inductive DlOutcome where
  | returnedTrue
  | returnedNone
  | raised
deriving DecidableEq, Repr

/-- Model of `Repo._download` (lines 179-198): stream the response into the
destination file chunk by chunk; report `True` exactly when the stream was
read to its end, with no comparison of the byte count against the index
metadata (the `size` argument only scales the progress bar).  A `URLError`
from `urlopen` is caught by the `except` handler: warning, falsy `None`,
nothing written.  A network error while reading the body is not a
`URLError`: it escapes the handler and propagates, after `open(dst, 'wb')`
has already created (or truncated) the destination file and the chunk loop
has written the part of the stream received so far, leaving a fragment of
`written` bytes behind. -/
def downloadFile (remote : String → NetDl) (files : List (String × Nat))
    (dst : String) : List (String × Nat) × DlOutcome :=
  match remote dst with
  | .connectFail => (files, .returnedNone)
  | .readFail written => (dictInsert files dst written, .raised)
  | .ok len => (dictInsert files dst len, .returnedTrue)

/-- Observable result of `Repo._get_cached`: the cache path on success, the
implicit falsy `None` when the entry is missing or `_download` returned
falsy, or the exception propagating out of `_download` (there is no
handler in `_get_cached`). -/
inductive FetchResult where
  | path (p : String)
  | missing
  | raised
deriving DecidableEq, Repr

/-- Model of `Repo._get_cached` (lines 152-163): return the cache path if the
artifact is validly cached, otherwise try to download it and return the
path on a successful transfer; a read-time download error propagates. -/
def getCached (remote : String → NetDl) (index : List (String × Entry))
    (files : List (String × Nat)) (name : String) :
    List (String × Nat) × FetchResult :=
  match dictLookup index name with
  | none => (files, .missing)
  | some e =>
    if isCached index files name then (files, .path e.path)
    else
      match downloadFile remote files e.path with
      | (files', .returnedTrue) => (files', .path e.path)
      | (files', .returnedNone) => (files', .missing)
      | (files', .raised) => (files', .raised)

/-- Model of `Repo.download` (lines 346-352): with `force`, unlink a validly
cached copy first; then report success iff `_get_cached` yields a path; an
exception from the download propagates. -/
def download (remote : String → NetDl) (index : List (String × Entry))
    (files : List (String × Nat)) (name : String) (force : Bool) :
    List (String × Nat) × DlOutcome :=
  let files1 :=
    if force && isCached index files name then
      match dictLookup index name with
      | some e => dictRemove files e.path
      | none => files
    else files
  match getCached remote index files1 name with
  | (files', .path _) => (files', .returnedTrue)
  | (files', .missing) => (files', .returnedNone)
  | (files', .raised) => (files', .raised)

/-! ### Install manager: `Repo._deploy_lib`, `Repo.is_installed`, `Repo.install`

The extracted library tree of one installed package is a map from the
top-level subdirectory name under `lib/` (the ABI) to the list of extracted
paths below it.  The archive of an artifact is its `zipfile` name list. -/

/-- The canonical ordered ABI list `Repo.abis` (lines 119-120). -/
def abisList : List String :=
  ["x86", "x86_64", "armeabi", "armeabi-v7a", "arm64-v8a", "mips", "mips64"]

/-- The ABI-to-instruction-set map `Repo.abi2isa` (lines 116-117). -/
def abi2isaMap : List (String × String) :=
  [("x86", "x86"), ("x86_64", "x86_64"), ("armeabi", "arm"),
   ("armeabi-v7a", "arm"), ("arm64-v8a", "arm64"), ("mips", "mips"),
   ("mips64", "mips64")]

/-- Record one extracted path inside the `lib/<abi>/` subdirectory. -/
def addLibFile (tree : List (String × List String)) (abi : String)
    (rest : String) : List (String × List String) :=
  match dictLookup tree abi with
  | some fs => dictInsert tree abi (fs ++ [rest])
  | none => dictInsert tree abi [rest]

/-- Splitting a path into its `/`-separated components, spelled out on the
character list (the semantics of Python `str.split('/')`) so that concrete
archives evaluate inside the kernel. -/
def splitSlashAux : List Char → List Char → List String
  | [], acc => [String.mk acc.reverse]
  | ch :: rest, acc =>
    if ch = '/' then String.mk acc.reverse :: splitSlashAux rest []
    else splitSlashAux rest (ch :: acc)

/-- Path components of a string. -/
def splitSlash (s : String) : List String := splitSlashAux s.data []

/-- Joining path components back with `/`. -/
def joinSlash : List String → String
  | [] => ""
  | [s] => s
  | s :: rest => s ++ "/" ++ joinSlash rest

/-- Extraction loop of `Repo._deploy_lib` (lines 202-205): every archive
member whose name starts with `lib/` is extracted, preserving internal
paths.  A member `lib/<abi>/...` (including the directory marker
`lib/<abi>/` itself, recorded as the empty path) populates the subdirectory
`<abi>`; a plain member `lib/<abi>` is a file directly under `lib/` and
creates no subdirectory. -/
def extractLib (zipNames : List String) : List (String × List String) :=
  zipNames.foldl
    (fun tree f =>
      match splitSlash f with
      | "lib" :: abi :: rest =>
        if rest = [] then tree
        else addLibFile tree abi (joinSlash rest)
      | _ => tree)
    []

/-- One iteration of the ABI loop of `Repo._deploy_lib` (lines 207-225): an
unwanted ABI's subdirectory is deleted; a wanted ABI whose instruction-set
name differs is renamed to it unless the instruction-set directory already
exists; ABIs missing from `abi2isa` are skipped with a warning. -/
def deployStep (wanted : List String) (tree : List (String × List String))
    (abi : String) : List (String × List String) :=
  if wanted.contains abi = false then
    dictRemove tree abi
  else
    match dictLookup abi2isaMap abi with
    | none => tree
    | some isa =>
      if abi = isa then tree
      else
        match dictLookup tree abi with
        | none => tree
        | some content =>
          if (dictLookup tree isa).isSome then tree
          else dictInsert (dictRemove tree abi) isa content

/-- Model of `Repo._deploy_lib` (lines 200-226): extract the `lib/` members
of the artifact's archive, then run the ABI loop over the canonical ordered
ABI list.  The source always returns `True`. -/
def deployLib (zipNames : List String) (wanted : List String) :
    List (String × List String) :=
  abisList.foldl (deployStep wanted) (extractLib zipNames)

/-- On-disk state of one installed package directory
`installed_dir/<name>/`: whether the hard-linked artifact
`<name>.apk` is present, and the extracted `lib/` tree. -/
structure PkgDir where
  hasApk : Bool
  lib : List (String × List String)
deriving DecidableEq, Repr

/-- Combined local state used by `Repo.install`: the artifact cache and the
installed tree (`installed_dir`, one entry per package directory). -/
structure InstallState where
  cacheFiles : List (String × Nat)
  tree : List (String × PkgDir)
deriving DecidableEq, Repr

/-- Model of `Repo.is_installed` (lines 176-177): existence of the
hard-linked artifact at `installed_dir/<name>/<name>.apk`. -/
def isInstalled (tree : List (String × PkgDir)) (name : String) : Bool :=
  match dictLookup tree name with
  | some p => p.hasApk
  | none => false

/-- Observable result of `Repo.install`: `True` (success), the falsy `None`
after the "has already been installed" warning, the falsy `None` after the
"can't find" warning, or an exception propagating out of the cache fetch
(`install` has no handler). -/
inductive InstallOutcome where
  | ok
  | alreadyInstalled
  | notFound
  | raised
deriving DecidableEq, Repr

/-- Model of `Repo.install` (lines 313-333).  `zipOf` maps an identity to
the archive member list of its artifact.  The cache fetch runs first; when
it fails the warning is "can't find", even for an already-installed
identity.  A fresh install links the artifact and deploys its libraries;
extraction into a leftover partially-installed directory (possible only
after a crash) is modelled as replacing the directory content.
`resolveAbis` is the expansion `if 'all' in abis: abis = self.abis[:]`. -/
def resolveAbis (abis : List String) : List String :=
  if abis.contains "all" then abisList else abis

/-- Model of `Repo.install` (lines 313-333).  `zipOf` maps an identity to
the archive member list of its artifact.  The cache fetch runs first; when
it fails the warning is "can't find", even for an already-installed
identity.  A fresh install links the artifact and deploys its libraries;
extraction into a leftover partially-installed directory (possible only
after a crash) is modelled as replacing the directory content. -/
def install (remote : String → NetDl) (zipOf : String → List String)
    (index : List (String × Entry)) (st : InstallState) (name : String)
    (reinstall : Bool) (abis : List String) : InstallState × InstallOutcome :=
  let abis' := resolveAbis abis
  match getCached remote index st.cacheFiles name with
  | (cache', .raised) => ({ st with cacheFiles := cache' }, .raised)
  | (cache', .missing) => ({ st with cacheFiles := cache' }, .notFound)
  | (cache', .path _) =>
    if isInstalled st.tree name && !reinstall then
      ({ st with cacheFiles := cache' }, .alreadyInstalled)
    else
      -- uninstall(name, force=True) on reinstall removes the whole directory
      let tree1 := if isInstalled st.tree name then dictRemove st.tree name
                   else st.tree
      -- os.link(path, to) then self._deploy_lib(to, abis)
      (⟨cache', dictInsert tree1 name ⟨true, deployLib (zipOf name) abis'⟩⟩, .ok)

/-! ### Query engine: `Repo._get_latest`, `Repo.search`

`search` compiles its pattern case-insensitively and probes the identity
and, unless `name_only`, the `title` and `path` fields; the compiled
pattern is the oracle `matches`.  `is_cached`/`is_installed` probe the live
filesystem and are likewise passed as predicates. -/

/-- Matching loop of `Repo.search` (lines 283-296): collect the identities
whose name matches, or — unless `name_only` — whose `title` or `path`
matches; each index item contributes its identity at most once. -/
def searchNames (matcher : String → Bool) (nameOnly : Bool)
    (index : List (String × Entry)) : List String :=
  index.filterMap fun p =>
    if matcher p.1 then some p.1
    else if !nameOnly && (matcher p.2.title || matcher p.2.path) then some p.1
    else none

/-- A `search` result row: the status annotations added first, then the
entry fields merged in by `i.update(self.get_info(n))`. -/
structure Ann where
  cached : Bool
  installed : Bool
  entry : Entry
deriving DecidableEq, Repr

/-- Result loop of `Repo.search` (lines 298-304): walk the sorted names,
annotate with live cached/installed status, drop non-installed rows when
`installed` is set (checked before the index lookup), and merge the entry
in.  A missing entry would make `i.update(None)` raise: `none`. -/
def buildResult (index : List (String × Entry)) (isC isI : String → Bool)
    (installedOnly : Bool) : List String → Option (List (String × Ann))
  | [] => some []
  | n :: rest =>
    if installedOnly && !(isI n) then
      buildResult index isC isI installedOnly rest
    else
      match dictLookup index n with
      | none => none
      | some e =>
        (buildResult index isC isI installedOnly rest).map
          (fun r => (n, ⟨isC n, isI n, e⟩) :: r)

/-- Loop of `Repo._get_latest` (lines 268-278) with its accumulator dict
`latest : package ↦ (name, vercode)`.  A name whose entry is missing makes
`i['package']` raise: `none`. -/
def getLatestGo (info : String → Option Entry) :
    List String → List (String × String × Int) →
    Option (List (String × String × Int))
  | [], latest => some latest
  | n :: rest, latest =>
    match info n with
    | none => none
    | some i =>
      match dictLookup latest i.package with
      | some l =>
        if i.vercode < l.2 then getLatestGo info rest latest
        else getLatestGo info rest (dictInsert latest i.package (n, i.vercode))
      | none => getLatestGo info rest (dictInsert latest i.package (n, i.vercode))

/-- Model of `Repo._get_latest`: the names surviving latest-version
selection, in first-insertion order of their packages. -/
def getLatest (info : String → Option Entry) (names : List String) :
    Option (List String) :=
  (getLatestGo info names []).map (fun acc => acc.map (fun v => v.2.1))

/-- Model of `Repo.search` (lines 280-308): collect matching names, sort
them, build the annotated result (filtering by installed status), and if
`latest` is set keep only the rows whose name survives `_get_latest` run
over the result's names. -/
def search (matcher : String → Bool) (nameOnly latestOnly installedOnly : Bool)
    (index : List (String × Entry)) (isC isI : String → Bool) :
    Option (List (String × Ann)) :=
  let names := pySort (searchNames matcher nameOnly index)
  match buildResult index isC isI installedOnly names with
  | none => none
  | some result =>
    if latestOnly then
      match getLatest (dictLookup index) (result.map Prod.fst) with
      | none => none
      | some wanted => some (result.filter fun i => wanted.contains i.1)
    else some result

/-! ### Name resolver: `expand_name` (lines 476-483) -/

/-- Model of `expand_name`: `compile` is the regex-compilation oracle (the
pattern passed to `search` is the raw input `name`).  A name already in the
index is returned unchanged (`get_info` returns its non-empty, hence
truthy, entry dict); otherwise the name is replaced by the identity of the
unique search match, when there is exactly one. -/
def expandName (compile : String → String → Bool)
    (index : List (String × Entry)) (isC isI : String → Bool)
    (name : String) (installedOnly : Bool) : Option String :=
  match dictLookup index name with
  | some _ => some name
  | none =>
    match search (compile name) true true installedOnly index isC isI with
    | none => none
    | some res =>
      match res with
      | [(n, _)] => some n
      | _ => some name

/-- Invariant of the `_get_latest` accumulator `latest` after the loop has
processed the prefix `done` of its input: each accumulator binding
`package ↦ (name, vercode)` records an entry of `done` whose vercode bounds
every earlier same-package entry from above (weakly) and every later
same-package entry strictly — i.e. the last entry of `done` attaining its
package's maximum — and every processed name's package has a binding; the
binding keys are distinct. -/
def LatestInv (info : String → Option Entry) (done : List String)
    (acc : List (String × String × Int)) : Prop :=
  (∀ p nm vc, (p, (nm, vc)) ∈ acc →
     ∃ e, info nm = some e ∧ e.package = p ∧ e.vercode = vc ∧
       ∃ l₁ l₂, done = l₁ ++ nm :: l₂ ∧
         (∀ m ∈ l₁, ∀ em, info m = some em → em.package = p →
            em.vercode ≤ vc) ∧
         (∀ m ∈ l₂, ∀ em, info m = some em → em.package = p →
            em.vercode < vc)) ∧
  (∀ m ∈ done, ∀ em, info m = some em →
     ∃ nm vc, (em.package, (nm, vc)) ∈ acc) ∧
  (acc.map Prod.fst).Nodup

/-! ### Concrete fixtures

Small concrete indexes, oracles and states used to instantiate the
theorems below on explicit inputs. -/

/-- A sample entry. -/
def entryA : Entry := ⟨"demo", "1.0", 1, "Demo App", "demo-1.0.apk", 3⟩

/-- Two entries of one package sharing the maximal `vercode` (a tie). -/
def entryP1 : Entry := ⟨"p", "1", 1, "P one", "p1.apk", 1⟩

/-- Second entry of the tie; same `package`, same `vercode`. -/
def entryP2 : Entry := ⟨"p", "2", 1, "P two", "p2.apk", 1⟩

/-- Package `q`, lower version, which will be the installed one. -/
def entryQ1 : Entry := ⟨"q", "1", 1, "Q one", "q1.apk", 1⟩

/-- Package `q`, higher `vercode`, not installed. -/
def entryQ2 : Entry := ⟨"q", "2", 2, "Q two", "q2.apk", 1⟩

/-- Index holding just `entryA`. -/
def index1 : List (String × Entry) := loadIndex [entryA]

/-- Index with the `vercode` tie between `p-1` and `p-2`. -/
def indexTie : List (String × Entry) := loadIndex [entryP1, entryP2]

/-- Index with the two versions of package `q`. -/
def indexQ : List (String × Entry) := loadIndex [entryQ1, entryQ2]

/-- A `json.load` oracle that always fails. -/
def noParse : String → Option (List Entry) := fun _ => none

/-- A `json.load` oracle recognising the document "IDX". -/
def parseIdx : String → Option (List Entry) :=
  fun s => if s = "IDX" then some [entryA] else none

/-- A network oracle on which every connection raises `URLError`. -/
def noRemote : String → NetDl := fun _ => .connectFail

/-- A network oracle delivering `entryA`'s artifact with the correct size. -/
def remoteA : String → NetDl :=
  fun p => if p = "demo-1.0.apk" then .ok 3 else .connectFail

/-- A network oracle delivering `entryA`'s artifact with the wrong size. -/
def remoteBad : String → NetDl :=
  fun p => if p = "demo-1.0.apk" then .ok 4 else .connectFail

/-- A network oracle on which every transfer dies mid-stream after one
byte: the resulting error is not a `URLError` and propagates. -/
def readAbort : String → NetDl := fun _ => .readFail 1

/-- A state in which `demo-1.0` is installed but its artifact is not in
the cache. -/
def installedNotCached : InstallState := ⟨[], [("demo-1.0", ⟨true, []⟩)]⟩

/-- An archive oracle returning an empty member list. -/
def emptyZip : String → List String := fun _ => []

/-- Archive member list containing three ABI library subdirectories. -/
def zipNames0 : List String :=
  ["lib/x86/libfoo.so", "lib/armeabi/libfoo.so", "lib/arm64-v8a/libfoo.so",
   "classes.dex"]

/-- A state in which identity `x` is installed but the index is empty. -/
def c3State : InstallState := ⟨[], [("x", ⟨true, []⟩)]⟩

/-- A state in which `demo-1.0` is both validly cached and installed. -/
def installedDemo : InstallState :=
  ⟨[("demo-1.0.apk", 3)], [("demo-1.0", ⟨true, []⟩)]⟩

/-- A match oracle accepting everything (the pattern `.` on these names). -/
def matchAll : String → Bool := fun _ => true

/-- A predicate that is false everywhere (nothing cached / installed). -/
def nothingThere : String → Bool := fun _ => false

/-- Installed-status oracle for the C9 scenario: only `q-1` is installed. -/
def installedQ1 : String → Bool := fun n => n == "q-1"

/-- A regex-compilation oracle whose compiled patterns match everything. -/
def compileAll : String → String → Bool := fun _ _ => true

/-! ### Lemmas about the dictionary operations -/

theorem dictLookup_nil (k : String) : dictLookup ([] : List (String × α)) k = none := rfl

theorem dictLookup_cons (p : String × α) (d : List (String × α)) (k : String) :
    dictLookup (p :: d) k = if p.1 = k then some p.2 else dictLookup d k := by
  simp only [dictLookup, List.find?]
  by_cases h : p.1 = k <;> simp [h]

theorem dictLookup_dictRemove (d : List (String × α)) (k k' : String) :
    dictLookup (dictRemove d k) k' = if k' = k then none else dictLookup d k' := by
  induction d with
  | nil => simp [dictRemove, dictLookup_nil]
  | cons p d ih =>
    by_cases hpk : p.1 = k
    · have hstep : dictRemove (p :: d) k = dictRemove d k := by
        simp [dictRemove, List.filter, hpk]
      rw [hstep, ih, dictLookup_cons]
      by_cases hk' : k' = k
      · simp [hk']
      · have : p.1 ≠ k' := by rw [hpk]; exact fun h => hk' h.symm
        simp [hk', this]
    · have hstep : dictRemove (p :: d) k = p :: dictRemove d k := by
        simp [dictRemove, List.filter, hpk]
      rw [hstep, dictLookup_cons, ih, dictLookup_cons]
      by_cases hk' : k' = k
      · have : p.1 ≠ k' := by rw [hk']; exact hpk
        simp [hk', this, hpk]
      · simp [hk']

theorem dictLookup_append_single (d : List (String × α)) (k : String) (v : α)
    (k' : String) :
    dictLookup (d ++ [(k, v)]) k' =
      match dictLookup d k' with
      | some w => some w
      | none => if k' = k then some v else none := by
  induction d with
  | nil =>
    simp only [List.nil_append, dictLookup_cons, dictLookup_nil]
    by_cases h : k' = k
    · simp [h]
    · have : ¬ (k = k') := fun hh => h hh.symm
      simp [h, this]
  | cons p d ih =>
    simp only [List.cons_append, dictLookup_cons]
    by_cases hp : p.1 = k' <;> simp [hp, ih]

theorem dictLookup_map_update (d : List (String × α)) (k : String) (v : α)
    (k' : String) :
    dictLookup (d.map (fun p => if p.1 = k then (k, v) else p)) k' =
      if k' = k then (dictLookup d k).map (fun _ => v) else dictLookup d k' := by
  induction d with
  | nil => by_cases h : k' = k <;> simp [dictLookup_nil, h]
  | cons p d ih =>
    simp only [List.map_cons]
    by_cases hp : p.1 = k
    · simp only [hp, if_pos rfl, dictLookup_cons]
      by_cases hk' : k' = k
      · simp [hk', hp]
      · have : ¬ (k = k') := fun hh => hk' hh.symm
        simp [hk', this, ih, hp]
    · simp only [if_neg hp, dictLookup_cons, ih]
      by_cases hk' : k' = k
      · have : ¬ (p.1 = k') := by rw [hk']; exact hp
        simp [hk', this, hp]
      · simp [hk']

theorem dictLookup_dictInsert (d : List (String × α)) (k : String) (v : α)
    (k' : String) :
    dictLookup (dictInsert d k v) k' =
      if k' = k then some v else dictLookup d k' := by
  unfold dictInsert
  by_cases h : (d.find? (fun p => p.1 = k)).isSome
  · rw [if_pos h, dictLookup_map_update]
    have hs : (dictLookup d k).isSome := by
      simpa [dictLookup] using h
    obtain ⟨w, hw⟩ := Option.isSome_iff_exists.mp hs
    by_cases hk' : k' = k <;> simp [hk', hw]
  · rw [if_neg h, dictLookup_append_single]
    have hn : dictLookup d k = none := by
      rcases ho : dictLookup d k with _ | w
      · rfl
      · exact absurd (by simpa [dictLookup] using congrArg Option.isSome ho) (by simpa using h)
    by_cases hk' : k' = k
    · simp [hk', hn]
    · rcases ho : dictLookup d k' with _ | w <;> simp [hk', ho]

theorem dictLookup_isSome_iff (d : List (String × α)) (k : String) :
    (dictLookup d k).isSome ↔ k ∈ d.map Prod.fst := by
  induction d with
  | nil => simp [dictLookup_nil]
  | cons p d ih =>
    rw [dictLookup_cons]
    by_cases hp : p.1 = k
    · simp [hp]
    · have : ¬ (k = p.1) := fun hh => hp hh.symm
      simp [hp, ih, this]

theorem dictLookup_eq_some_mem {d : List (String × α)} {k : String} {v : α}
    (h : dictLookup d k = some v) : (k, v) ∈ d := by
  unfold dictLookup at h
  rcases hf : d.find? (fun p => p.1 = k) with _ | p
  · rw [hf] at h; cases h
  · rw [hf] at h
    have hm := List.mem_of_find?_eq_some hf
    have hp := List.find?_some hf
    simp only [decide_eq_true_eq] at hp
    have h2 : p.2 = v := Option.some.inj h
    have : p = (k, v) := by
      cases p
      simp only at hp h2
      rw [hp, h2]
    rwa [this] at hm

/-! ### C1: `Repo.update` under network failure -/

/-- C1, counterexample: the claim "for every invocation of update() that
encounters a network failure, the previous cache file content is left
byte-for-byte unchanged and update() returns a failure signal rather than
raising" is false.  When the network fails while the response body is being
read, `open(self.index_file, 'w')` has already truncated the file, so the
previous content `"old-index"` is destroyed, and the read-time error is not
a `URLError`, so the invocation raises instead of returning. -/
theorem c1_counterexample :
    (update noParse ⟨some "old-index", []⟩ .readFail).1.indexFile ≠
      some "old-index" ∧
    (update noParse ⟨some "old-index", []⟩ .readFail).2 ≠ .returnedNone ∧
    (update noParse ⟨some "old-index", []⟩ .readFail).2 = .raised := by
  refine ⟨?_, ?_, rfl⟩ <;> decide

/-- C1, amended: when the network failure occurs while opening the
connection (a `URLError` from `urlopen`), `update` leaves the index cache
file untouched — indeed the whole state — and reports failure by returning
the falsy `None`; but a network failure during the response body read
leaves the cache file truncated to empty and raises. -/
theorem c1_update_network_failure (parse : String → Option (List Entry))
    (st : StoreState) :
    update parse st .connectFail = (st, .returnedNone) ∧
    (update parse st .readFail).1.indexFile = some "" ∧
    (update parse st .readFail).2 = .raised :=
  ⟨rfl, rfl, rfl⟩

/-! ### C7: `Repo.clean` preserves the index document -/

/-- C7: for every state in which the index file exists inside the cache
directory, `clean` returns success, leaves the cache directory containing
exactly the index document with its previous content (the file having been
moved to a sibling of the cache root and back, as spelled out in the
definition of `clean`), and a subsequent `_load_index` yields the same
in-memory index contents as before. -/
theorem c7_clean_preserves_index (parse : String → Option (List Entry))
    (st : RootFS) (files : List (String × String)) (c : String)
    (hdir : st.cacheDir = some files)
    (hidx : dictLookup files indexName = some c) :
    (clean st).2 = .returnedTrue ∧
    (clean st).1.cacheDir = some [(indexName, c)] ∧
    loadFromRoot parse (clean st).1 = loadFromRoot parse st := by
  have h1 : clean st =
      (⟨some [(indexName, c)],
        dictRemove (dictInsert st.rootExtra indexName c) indexName⟩,
       .returnedTrue) := by
    unfold clean
    rw [hdir]
    simp only [hidx]
    rfl
  rw [h1]
  refine ⟨rfl, rfl, ?_⟩
  unfold loadFromRoot
  rw [hdir]
  simp [hidx, dictLookup_cons]

/-- C7 witness: the theorem applied to a concrete cache directory holding an
artifact fragment next to the index document. -/
theorem c7_witness :
    (clean ⟨some [("a.apk", "AA"), (indexName, "IDX")], [("left", "x")]⟩).2 =
      .returnedTrue ∧
    (clean ⟨some [("a.apk", "AA"), (indexName, "IDX")], [("left", "x")]⟩).1.cacheDir =
      some [(indexName, "IDX")] ∧
    loadFromRoot parseIdx
        (clean ⟨some [("a.apk", "AA"), (indexName, "IDX")], [("left", "x")]⟩).1 =
      loadFromRoot parseIdx
        ⟨some [("a.apk", "AA"), (indexName, "IDX")], [("left", "x")]⟩ :=
  c7_clean_preserves_index parseIdx _ _ "IDX" rfl (by decide)

/-! ### C4: `is_cached` validity and the fetch/invalidate round trip -/

/-- C4: `is_cached` is true exactly when the identity has an index entry, a
file exists at the entry's cache path, and that file's byte size equals
`entry.size`; and for an entry whose `size` correctly reports the
artifact's length, a fetch (`_get_cached`) succeeds and leaves the identity
cached, while force-removing the cached file makes `is_cached` false. -/
theorem c4_is_cached_round_trip :
    (∀ (index : List (String × Entry)) (files : List (String × Nat)) name,
       isCached index files name = true ↔
         ∃ e, dictLookup index name = some e ∧
              dictLookup files e.path = some e.size) ∧
    (∀ (remote : String → NetDl) (index : List (String × Entry))
       (files : List (String × Nat)) (name : String) (e : Entry),
       dictLookup index name = some e →
       remote e.path = NetDl.ok e.size →
       (getCached remote index files name).2 = FetchResult.path e.path ∧
       isCached index (getCached remote index files name).1 name = true ∧
       isCached index
         (dictRemove (getCached remote index files name).1 e.path) name = false) := by
  constructor
  · intro index files name
    unfold isCached
    rcases he : dictLookup index name with _ | e
    · simp
    · rcases hf : dictLookup files e.path with _ | sz
      · simp [hf]
      · simp only [hf]
        constructor
        · intro h
          have hsz : sz = e.size := by simpa using h
          exact ⟨e, rfl, by rw [hf, hsz]⟩
        · rintro ⟨e', he', hf'⟩
          cases he'
          rw [hf] at hf'
          cases hf'
          simp
  · intro remote index files name e he hr
    by_cases hc : isCached index files name = true
    · have hg : getCached remote index files name =
          (files, .path e.path) := by
        unfold getCached
        simp [he, hc]
      rw [hg]
      refine ⟨rfl, hc, ?_⟩
      unfold isCached
      simp [he, dictLookup_dictRemove]
    · have hg : getCached remote index files name =
          (dictInsert files e.path e.size, .path e.path) := by
        unfold getCached downloadFile
        simp [he, hc, hr]
      rw [hg]
      refine ⟨rfl, ?_, ?_⟩
      · unfold isCached
        simp [he, dictLookup_dictInsert]
      · unfold isCached
        simp [he, dictLookup_dictRemove]

/-- C4 witness: the round-trip part applied to `entryA` with an honest
network oracle and an initially empty cache. -/
theorem c4_witness :
    dictLookup index1 "demo-1.0" = some entryA ∧
    remoteA entryA.path = NetDl.ok entryA.size ∧
    (getCached remoteA index1 [] "demo-1.0").2 = FetchResult.path entryA.path ∧
    isCached index1 (getCached remoteA index1 [] "demo-1.0").1 "demo-1.0" = true ∧
    isCached index1
      (dictRemove (getCached remoteA index1 [] "demo-1.0").1 entryA.path)
      "demo-1.0" = false := by
  have h := c4_is_cached_round_trip.2 remoteA index1 [] "demo-1.0" entryA
    (by decide) (by decide)
  exact ⟨by decide, by decide, h.1, h.2.1, h.2.2⟩

/-! ### C10: the download step does not verify the transferred size -/

/-- C10: `_download` reports success whenever the response stream is read to
its end, whatever the transferred length, so `download` reports success;
when that length differs from the entry's `size` field, `is_cached` is
false immediately afterwards. -/
theorem c10_download_no_size_check (remote : String → NetDl)
    (index : List (String × Entry)) (files : List (String × Nat))
    (name : String) (e : Entry) (len : Nat)
    (he : dictLookup index name = some e)
    (hnc : isCached index files name = false)
    (hlen : remote e.path = NetDl.ok len) :
    download remote index files name false =
      (dictInsert files e.path len, .returnedTrue) ∧
    (len ≠ e.size →
      isCached index (dictInsert files e.path len) name = false) := by
  constructor
  · unfold download getCached downloadFile
    simp [he, hnc, hlen]
  · intro hne
    unfold isCached
    simp [he, dictLookup_dictInsert, hne]

/-- C10 witness: the network delivers 4 bytes for an artifact whose index
entry declares 3; `download` still reports success and the artifact is not
considered cached. -/
theorem c10_witness :
    dictLookup index1 "demo-1.0" = some entryA ∧
    isCached index1 [] "demo-1.0" = false ∧
    remoteBad entryA.path = NetDl.ok 4 ∧
    download remoteBad index1 [] "demo-1.0" false =
      (dictInsert [] entryA.path 4, DlOutcome.returnedTrue) ∧
    ((4 : Nat) ≠ entryA.size →
      isCached index1 (dictInsert [] entryA.path 4) "demo-1.0" = false) := by
  have h := c10_download_no_size_check remoteBad index1 [] "demo-1.0" entryA 4
    (by decide) (by decide) (by decide)
  exact ⟨by decide, by decide, by decide, h.1, h.2⟩

/-! ### C5: architecture pruning in `_deploy_lib` -/

theorem mem_dictRemove {q : String × α} {d : List (String × α)} {k : String} :
    q ∈ dictRemove d k ↔ q ∈ d ∧ q.1 ≠ k := by
  simp [dictRemove, List.mem_filter]

theorem deployStep_unwanted (wanted : List String) (abi : String)
    (tree : List (String × List String)) (h : wanted.contains abi = false) :
    deployStep wanted tree abi = dictRemove tree abi := by
  unfold deployStep
  rw [h]
  simp

/-- C5: deploying with `wanted_architectures = {"arm64-v8a"}` an artifact
whose extracted library tree consists of the subdirectories `x86`,
`armeabi` and `arm64-v8a` leaves exactly the single subdirectory `arm64`
carrying the former `arm64-v8a` content: the two unwanted ABI directories
are deleted and the wanted one is renamed to its instruction-set name. -/
theorem c5_architecture_pruning (zipNames : List String) (c : List String)
    (hsub : ∀ k ∈ (extractLib zipNames).map Prod.fst,
      k = "x86" ∨ k = "armeabi" ∨ k = "arm64-v8a")
    (hx : (dictLookup (extractLib zipNames) "x86").isSome = true)
    (ha : (dictLookup (extractLib zipNames) "armeabi").isSome = true)
    (h64 : dictLookup (extractLib zipNames) "arm64-v8a" = some c) :
    deployLib zipNames ["arm64-v8a"] = [("arm64", c)] := by
  have harm64 : dictLookup (extractLib zipNames) "arm64" = none := by
    rcases h : dictLookup (extractLib zipNames) "arm64" with _ | v
    · rfl
    · exfalso
      have hmem : "arm64" ∈ (extractLib zipNames).map Prod.fst := by
        rw [← dictLookup_isSome_iff, h]; rfl
      rcases hsub _ hmem with h' | h' | h' <;> exact absurd h' (by decide)
  have hl64 : dictLookup (dictRemove (dictRemove (dictRemove (dictRemove
      (extractLib zipNames) "x86") "x86_64") "armeabi") "armeabi-v7a")
      "arm64-v8a" = some c := by
    rw [dictLookup_dictRemove, if_neg (by decide),
        dictLookup_dictRemove, if_neg (by decide),
        dictLookup_dictRemove, if_neg (by decide),
        dictLookup_dictRemove, if_neg (by decide)]
    exact h64
  have hlarm : dictLookup (dictRemove (dictRemove (dictRemove (dictRemove
      (extractLib zipNames) "x86") "x86_64") "armeabi") "armeabi-v7a")
      "arm64" = none := by
    rw [dictLookup_dictRemove, if_neg (by decide),
        dictLookup_dictRemove, if_neg (by decide),
        dictLookup_dictRemove, if_neg (by decide),
        dictLookup_dictRemove, if_neg (by decide)]
    exact harm64
  have hempty : dictRemove (dictRemove (dictRemove (dictRemove (dictRemove
      (extractLib zipNames) "x86") "x86_64") "armeabi") "armeabi-v7a")
      "arm64-v8a" = [] := by
    rw [List.eq_nil_iff_forall_not_mem]
    intro q hq
    rw [mem_dictRemove] at hq
    obtain ⟨hq4, hne5⟩ := hq
    rw [mem_dictRemove] at hq4
    obtain ⟨hq3, hne4⟩ := hq4
    rw [mem_dictRemove] at hq3
    obtain ⟨hq2, hne3⟩ := hq3
    rw [mem_dictRemove] at hq2
    obtain ⟨hq1, hne2⟩ := hq2
    rw [mem_dictRemove] at hq1
    obtain ⟨hq0, hne1⟩ := hq1
    have hkey : q.1 ∈ (extractLib zipNames).map Prod.fst :=
      List.mem_map_of_mem Prod.fst hq0
    rcases hsub _ hkey with h' | h' | h'
    · exact hne1 h'
    · exact hne3 h'
    · exact hne5 h'
  have h5 : deployStep ["arm64-v8a"] (dictRemove (dictRemove (dictRemove
      (dictRemove (extractLib zipNames) "x86") "x86_64") "armeabi")
      "armeabi-v7a") "arm64-v8a" = [("arm64", c)] := by
    unfold deployStep
    have hc1 : ¬ (["arm64-v8a"].contains "arm64-v8a" = false) := by decide
    rw [if_neg hc1]
    have hisa : dictLookup abi2isaMap "arm64-v8a" = some "arm64" := by decide
    simp only [hisa]
    have hc2 : ¬ (("arm64-v8a" : String) = "arm64") := by decide
    rw [if_neg hc2]
    simp only [hl64, hlarm, Option.isSome_none]
    have hc3 : ¬ ((false : Bool) = true) := by decide
    rw [if_neg hc3]
    rw [hempty]
    rfl
  unfold deployLib
  simp only [abisList, List.foldl_cons, List.foldl_nil]
  rw [deployStep_unwanted _ "x86" _ (by decide)]
  rw [deployStep_unwanted _ "x86_64" _ (by decide)]
  rw [deployStep_unwanted _ "armeabi" _ (by decide)]
  rw [deployStep_unwanted _ "armeabi-v7a" _ (by decide)]
  rw [h5]
  rw [deployStep_unwanted _ "mips" _ (by decide)]
  rw [deployStep_unwanted _ "mips64" _ (by decide)]
  simp [dictRemove, List.filter]

/-- C5 witness: a concrete archive with the three library directories and a
`classes.dex` member. -/
theorem c5_witness :
    (∀ k ∈ (extractLib zipNames0).map Prod.fst,
      k = "x86" ∨ k = "armeabi" ∨ k = "arm64-v8a") ∧
    (dictLookup (extractLib zipNames0) "x86").isSome = true ∧
    (dictLookup (extractLib zipNames0) "armeabi").isSome = true ∧
    dictLookup (extractLib zipNames0) "arm64-v8a" = some ["libfoo.so"] ∧
    deployLib zipNames0 ["arm64-v8a"] = [("arm64", ["libfoo.so"])] :=
  ⟨by decide, by decide, by decide, by decide,
   c5_architecture_pruning zipNames0 ["libfoo.so"] (by decide) (by decide)
     (by decide) (by decide)⟩

/-! ### C3: installing an already-installed identity -/

theorem install_tree_eq_of_installed (remote : String → NetDl)
    (zipOf : String → List String) (index : List (String × Entry))
    (st : InstallState) (name : String) (abis : List String)
    (hi : isInstalled st.tree name = true) :
    (install remote zipOf index st name false abis).1.tree = st.tree := by
  rcases hg : getCached remote index st.cacheFiles name with ⟨c1, r1⟩
  rcases r1 with p | _ | _
  · have h1 : install remote zipOf index st name false abis =
        ({ st with cacheFiles := c1 }, .alreadyInstalled) := by
      unfold install
      simp [hg, hi]
    rw [h1]
  · have h1 : install remote zipOf index st name false abis =
        ({ st with cacheFiles := c1 }, .notFound) := by
      unfold install
      simp only [hg]
    rw [h1]
  · have h1 : install remote zipOf index st name false abis =
        ({ st with cacheFiles := c1 }, .raised) := by
      unfold install
      simp only [hg]
    rw [h1]

/-- C3, counterexample: the claim "for every identity that is already
installed, calling install with reinstall=false ... reports 'already
installed' as a non-crashing failure" is false in two ways.  `install`
runs the cache fetch first, so for an installed identity absent from the
index the reported failure is "can't find", not "already installed"; and
for an installed identity whose artifact is not validly cached, a
read-time network error in `_download` is not a `URLError`, escapes the
handler, and makes `install` raise — not a non-crashing failure.  The
installed tree is left unchanged in both runs. -/
theorem c3_counterexample :
    (isInstalled c3State.tree "x" = true ∧
     install noRemote emptyZip [] c3State "x" false ["all"] =
       (c3State, .notFound) ∧
     InstallOutcome.notFound ≠ InstallOutcome.alreadyInstalled) ∧
    (isInstalled installedNotCached.tree "demo-1.0" = true ∧
     install readAbort emptyZip index1 installedNotCached "demo-1.0" false
       ["all"] =
       ({ installedNotCached with cacheFiles := [("demo-1.0.apk", 1)] },
        .raised) ∧
     InstallOutcome.raised ≠ InstallOutcome.alreadyInstalled) := by
  exact ⟨⟨by decide, by decide, by decide⟩, ⟨by decide, by decide, by decide⟩⟩

/-- C3, amended: for every already-installed identity, `install` with
`reinstall = false` leaves the installed tree unchanged (it never reaches
the linking branch) and its report is decided by the cache-fetch step that
runs first: "already installed" when the fetch yields a path, "can't find"
when the fetch fails by returning (identity missing from the index, or a
`URLError` opening the connection), and a propagating exception when a
read-time network error escapes `_download` — so the failure is not always
non-crashing.  Consequently calling `install` twice with
`reinstall = false` on an already-installed identity leaves the installed
tree identical to a single call. -/
theorem c3_install_already_installed :
    (∀ (remote : String → NetDl) (zipOf : String → List String)
       (index : List (String × Entry)) (st : InstallState) (name : String)
       (abis : List String),
       isInstalled st.tree name = true →
       (install remote zipOf index st name false abis).1.tree = st.tree ∧
       (install remote zipOf index st name false abis).2 ≠ .ok ∧
       (∀ p, (getCached remote index st.cacheFiles name).2 = .path p →
         (install remote zipOf index st name false abis).2 =
           .alreadyInstalled) ∧
       ((getCached remote index st.cacheFiles name).2 = .missing →
         (install remote zipOf index st name false abis).2 = .notFound) ∧
       ((getCached remote index st.cacheFiles name).2 = .raised →
         (install remote zipOf index st name false abis).2 = .raised)) ∧
    (∀ (remote : String → NetDl) (zipOf : String → List String)
       (index : List (String × Entry)) (st : InstallState) (name : String)
       (abis : List String),
       isInstalled st.tree name = true →
       (install remote zipOf index
          (install remote zipOf index st name false abis).1 name false
          abis).1.tree =
        (install remote zipOf index st name false abis).1.tree) := by
  constructor
  · intro remote zipOf index st name abis hi
    rcases hg : getCached remote index st.cacheFiles name with ⟨c1, r1⟩
    rcases r1 with p | _ | _
    · have h1 : install remote zipOf index st name false abis =
          ({ st with cacheFiles := c1 }, .alreadyInstalled) := by
        unfold install
        simp [hg, hi]
      rw [h1]
      refine ⟨rfl, ?_, ?_, ?_, ?_⟩
      · intro hc
        cases hc
      · intro q hq
        rfl
      · intro hm
        cases hm
      · intro hm
        cases hm
    · have h1 : install remote zipOf index st name false abis =
          ({ st with cacheFiles := c1 }, .notFound) := by
        unfold install
        simp only [hg]
      rw [h1]
      refine ⟨rfl, ?_, ?_, ?_, ?_⟩
      · intro hc
        cases hc
      · intro q hq
        cases hq
      · intro hm
        rfl
      · intro hm
        cases hm
    · have h1 : install remote zipOf index st name false abis =
          ({ st with cacheFiles := c1 }, .raised) := by
        unfold install
        simp only [hg]
      rw [h1]
      refine ⟨rfl, ?_, ?_, ?_, ?_⟩
      · intro hc
        cases hc
      · intro q hq
        cases hq
      · intro hm
        cases hm
      · intro hm
        rfl
  · intro remote zipOf index st name abis hi
    have h1 := install_tree_eq_of_installed remote zipOf index st name abis hi
    have hi2 : isInstalled
        (install remote zipOf index st name false abis).1.tree name = true := by
      rw [h1]
      exact hi
    exact install_tree_eq_of_installed remote zipOf index
      (install remote zipOf index st name false abis).1 name abis hi2

/-- C3 witness: the amended theorem applied to a state where `demo-1.0` is
cached and installed: the call reports "already installed", does not touch
the tree, and the second call leaves the tree identical. -/
theorem c3_witness :
    isInstalled installedDemo.tree "demo-1.0" = true ∧
    (install remoteA emptyZip index1 installedDemo "demo-1.0" false
       ["all"]).1.tree = installedDemo.tree ∧
    (install remoteA emptyZip index1 installedDemo "demo-1.0" false
       ["all"]).2 ≠ .ok ∧
    (getCached remoteA index1 installedDemo.cacheFiles "demo-1.0").2 =
      FetchResult.path "demo-1.0.apk" ∧
    (install remoteA emptyZip index1 installedDemo "demo-1.0" false
       ["all"]).2 = .alreadyInstalled ∧
    (install remoteA emptyZip index1
       (install remoteA emptyZip index1 installedDemo "demo-1.0" false
          ["all"]).1 "demo-1.0" false ["all"]).1.tree =
      (install remoteA emptyZip index1 installedDemo "demo-1.0" false
         ["all"]).1.tree := by
  have h1 := c3_install_already_installed.1 remoteA emptyZip index1
    installedDemo "demo-1.0" ["all"] (by decide)
  exact ⟨by decide, h1.1, h1.2.1,
    by decide, h1.2.2.1 "demo-1.0.apk" (by decide),
    c3_install_already_installed.2 remoteA emptyZip index1 installedDemo
      "demo-1.0" ["all"] (by decide)⟩

/-! ### Order lemmas for the string comparator and Python `sorted` -/

theorem charLt_eq_decide (a b : Char) : charLt a b = decide (a < b) := rfl

theorem charListLt_asymm : ∀ (as bs : List Char),
    charListLt as bs = true → charListLt bs as = false := by
  intro as
  induction as with
  | nil =>
    intro bs h
    rcases bs with _ | ⟨b, bs⟩
    · simpa [charListLt] using h
    · simp [charListLt]
  | cons a as ih =>
    intro bs h
    rcases bs with _ | ⟨b, bs⟩
    · simpa [charListLt] using h
    · simp only [charListLt, charLt_eq_decide] at h ⊢
      by_cases hab : a < b
      · simp [hab, lt_asymm hab]
      · by_cases hba : b < a
        · simp [hab, hba] at h
        · simp only [hab, hba] at h ⊢
          simp at h ⊢
          exact ih bs h

theorem charListLt_resolve : ∀ (as bs cs : List Char),
    charListLt as cs = true →
    charListLt as bs = true ∨ charListLt bs cs = true := by
  intro as
  induction as with
  | nil =>
    intro bs cs h
    rcases cs with _ | ⟨c, cs⟩
    · simpa [charListLt] using h
    · rcases bs with _ | ⟨b, bs⟩
      · exact Or.inr (by simp [charListLt])
      · exact Or.inl (by simp [charListLt])
  | cons a as ih =>
    intro bs cs h
    rcases cs with _ | ⟨c, cs⟩
    · simpa [charListLt] using h
    · rcases bs with _ | ⟨b, bs⟩
      · exact Or.inr (by simp [charListLt])
      · simp only [charListLt, charLt_eq_decide] at h ⊢
        rcases lt_trichotomy a b with hab | hab | hab
        · exact Or.inl (by simp [hab])
        · subst hab
          rcases lt_trichotomy a c with hac | hac | hac
          · exact Or.inr (by simp [hac])
          · subst hac
            have h' : charListLt as cs = true := by
              simpa [lt_irrefl] using h
            simpa [lt_irrefl] using ih bs cs h'
          · simp [lt_asymm hac, hac] at h
        · rcases lt_trichotomy b c with hbc | hbc | hbc
          · exact Or.inr (by simp [hbc])
          · subst hbc
            exfalso
            have hba : ¬ a < b := lt_asymm hab
            simp [hba, hab] at h
          · exfalso
            have hca : c < a := lt_trans hbc hab
            simp [lt_asymm hca, hca] at h

theorem strLt_asymm {a b : String} (h : strLt a b = true) : strLt b a = false :=
  charListLt_asymm a.data b.data h

theorem strLt_resolve (a b c : String) (h : strLt a c = true) :
    strLt a b = true ∨ strLt b c = true :=
  charListLt_resolve a.data b.data c.data h

theorem pyInsert_perm (a : String) : ∀ (l : List String),
    (pyInsert a l).Perm (a :: l) := by
  intro l
  induction l with
  | nil => exact List.Perm.refl _
  | cons b l ih =>
    unfold pyInsert
    by_cases h : strLt b a = true
    · rw [if_pos h]
      exact (ih.cons b).trans (List.Perm.swap a b l)
    · rw [if_neg h]

theorem pySort_perm : ∀ (l : List String), (pySort l).Perm l := by
  intro l
  induction l with
  | nil => exact List.Perm.refl _
  | cons a l ih =>
    unfold pySort
    exact (pyInsert_perm a (pySort l)).trans (ih.cons a)

theorem pyInsert_sorted (a : String) : ∀ (l : List String),
    List.Pairwise (fun x y => strLt y x = false) l →
    List.Pairwise (fun x y => strLt y x = false) (pyInsert a l) := by
  intro l
  induction l with
  | nil => intro _; simp [pyInsert]
  | cons b l ih =>
    intro h
    rw [List.pairwise_cons] at h
    obtain ⟨hb, hl⟩ := h
    unfold pyInsert
    by_cases hba : strLt b a = true
    · rw [if_pos hba]
      rw [List.pairwise_cons]
      refine ⟨?_, ih hl⟩
      intro x hx
      rcases List.mem_cons.mp ((pyInsert_perm a l).mem_iff.mp hx) with rfl | hxl
      · exact strLt_asymm hba
      · exact hb x hxl
    · rw [if_neg hba]
      rw [List.pairwise_cons]
      refine ⟨?_, List.pairwise_cons.mpr ⟨hb, hl⟩⟩
      intro x hx
      rcases List.mem_cons.mp hx with rfl | hxl
      · cases hv : strLt x a with
        | false => rfl
        | true => exact absurd hv hba
      · cases hres : strLt x a with
        | false => rfl
        | true =>
          exfalso
          rcases strLt_resolve x b a hres with h1 | h1
          · rw [hb x hxl] at h1
            cases h1
          · exact hba h1

theorem pySort_sorted : ∀ (l : List String),
    List.Pairwise (fun x y => strLt y x = false) (pySort l) := by
  intro l
  induction l with
  | nil => simp [pySort]
  | cons a l ih =>
    unfold pySort
    exact pyInsert_sorted a (pySort l) ih

/-! ### C6: search results are deduplicated and sorted -/

theorem searchNames_sublist (matcher : String → Bool) (nameOnly : Bool)
    (index : List (String × Entry)) :
    (searchNames matcher nameOnly index).Sublist (index.map Prod.fst) := by
  induction index with
  | nil => simp [searchNames]
  | cons p idx ih =>
    simp only [searchNames, List.filterMap_cons, List.map_cons] at ih ⊢
    by_cases h1 : matcher p.1 = true
    · simp only [h1, if_true]
      exact ih.cons₂ p.1
    · simp only [h1, if_false]
      by_cases h2 : (!nameOnly && (matcher p.2.title || matcher p.2.path)) = true
      · simp only [h2, if_true]
        exact ih.cons₂ p.1
      · simp only [h2, if_false]
        exact ih.cons p.1

theorem buildResult_sublist (index : List (String × Entry))
    (isC isI : String → Bool) (io : Bool) :
    ∀ (names : List String) (r : List (String × Ann)),
      buildResult index isC isI io names = some r →
      (r.map Prod.fst).Sublist names := by
  intro names
  induction names with
  | nil =>
    intro r h
    injection h with h1
    subst h1
    simp
  | cons n rest ih =>
    intro r h
    unfold buildResult at h
    by_cases hio : (io && !(isI n)) = true
    · rw [if_pos hio] at h
      exact (ih r h).cons n
    · rw [if_neg hio] at h
      rcases he : dictLookup index n with _ | e
      · rw [he] at h
        cases h
      · rw [he] at h
        rcases hb : buildResult index isC isI io rest with _ | r'
        · rw [hb] at h
          cases h
        · rw [hb] at h
          injection h with h1
          subst h1
          simp only [List.map_cons]
          exact (ih r' hb).cons₂ n

/-- C6: for every pattern oracle and every index with distinct identities,
a successful `search` returns a result whose identity column is sorted
ascending in the lexicographic string order and free of duplicates; and
since `search` is a pure function of its arguments, two calls with the same
arguments against the same index and filesystem oracles return identically
ordered results. -/
theorem c6_search_sorted_dedup (matcher : String → Bool)
    (nameOnly latestOnly installedOnly : Bool)
    (index : List (String × Entry)) (isC isI : String → Bool)
    (res : List (String × Ann))
    (hkeys : (index.map Prod.fst).Nodup)
    (h : search matcher nameOnly latestOnly installedOnly index isC isI =
      some res) :
    List.Pairwise (fun a b => strLt b a = false) (res.map Prod.fst) ∧
    (res.map Prod.fst).Nodup ∧
    search matcher nameOnly latestOnly installedOnly index isC isI =
      search matcher nameOnly latestOnly installedOnly index isC isI := by
  refine ⟨?_, ?_, rfl⟩ <;>
  · unfold search at h
    simp only [] at h
    rcases hb : buildResult index isC isI installedOnly
        (pySort (searchNames matcher nameOnly index)) with _ | result
    · rw [hb] at h
      cases h
    · rw [hb] at h
      have hres : (res.map Prod.fst).Sublist (result.map Prod.fst) := by
        by_cases hl : latestOnly = true
        · rw [hl] at h
          simp only [if_true] at h
          rcases hw : getLatest (dictLookup index) (result.map Prod.fst)
            with _ | wanted
          · rw [hw] at h
            cases h
          · rw [hw] at h
            injection h with h1
            subst h1
            exact (List.filter_sublist result).map Prod.fst
        · rw [Bool.not_eq_true] at hl
          rw [hl] at h
          simp only [if_false] at h
          injection h with h1
          subst h1
          exact List.Sublist.refl _
      have hrs : (result.map Prod.fst).Sublist
          (pySort (searchNames matcher nameOnly index)) :=
        buildResult_sublist index isC isI installedOnly _ result hb
      have hsub : (res.map Prod.fst).Sublist
          (pySort (searchNames matcher nameOnly index)) := hres.trans hrs
      first
      | exact (pySort_sorted (searchNames matcher nameOnly index)).sublist hsub
      | exact hsub.nodup
          (((pySort_perm _).nodup_iff).mpr
            ((searchNames_sublist matcher nameOnly index).nodup hkeys))

/-- C6 witness: the theorem applied to the two-entry index `indexQ` with an
all-accepting pattern. -/
theorem c6_witness :
    (List.Pairwise (fun a b => strLt b a = false)
      ((Option.getD (search matchAll false false false indexQ nothingThere
        nothingThere) []).map Prod.fst)) ∧
    ((Option.getD (search matchAll false false false indexQ nothingThere
        nothingThere) []).map Prod.fst).Nodup := by
  have h := c6_search_sorted_dedup matchAll false false false indexQ
    nothingThere nothingThere
    (Option.getD (search matchAll false false false indexQ nothingThere
      nothingThere) [])
    (by decide) (by decide)
  exact ⟨h.1, h.2.1⟩

/-! ### C8: `expand_name` and totality of `search` -/

theorem buildResult_isSome (index : List (String × Entry))
    (isC isI : String → Bool) (io : Bool) :
    ∀ (names : List String),
      (∀ n ∈ names, (dictLookup index n).isSome = true) →
      (buildResult index isC isI io names).isSome = true := by
  intro names
  induction names with
  | nil => intro _; rfl
  | cons n rest ih =>
    intro h
    have hrest : ∀ m ∈ rest, (dictLookup index m).isSome = true :=
      fun m hm => h m (List.mem_cons_of_mem _ hm)
    unfold buildResult
    by_cases hio : (io && !(isI n)) = true
    · rw [if_pos hio]
      exact ih hrest
    · rw [if_neg hio]
      rcases he : dictLookup index n with _ | e
      · exfalso
        have hn := h n (List.mem_cons_self _ _)
        rw [he] at hn
        cases hn
      · rcases hb : buildResult index isC isI io rest with _ | r'
        · exfalso
          have hr := ih hrest
          rw [hb] at hr
          cases hr
        · simp [he, hb]

theorem getLatestGo_isSome (info : String → Option Entry) :
    ∀ (names : List String) (acc : List (String × String × Int)),
      (∀ n ∈ names, (info n).isSome = true) →
      (getLatestGo info names acc).isSome = true := by
  intro names
  induction names with
  | nil => intro acc _; rfl
  | cons n rest ih =>
    intro acc h
    have hrest : ∀ m ∈ rest, (info m).isSome = true :=
      fun m hm => h m (List.mem_cons_of_mem _ hm)
    unfold getLatestGo
    rcases hi : info n with _ | i
    · exfalso
      have hn := h n (List.mem_cons_self _ _)
      rw [hi] at hn
      cases hn
    · simp only [hi]
      rcases hl : dictLookup acc i.package with _ | l
      · exact ih _ hrest
      · show (if i.vercode < l.2 then getLatestGo info rest acc
            else getLatestGo info rest
              (dictInsert acc i.package (n, i.vercode))).isSome = true
        by_cases hv : i.vercode < l.2
        · rw [if_pos hv]
          exact ih _ hrest
        · rw [if_neg hv]
          exact ih _ hrest

theorem search_isSome (matcher : String → Bool)
    (nameOnly latestOnly installedOnly : Bool) (index : List (String × Entry))
    (isC isI : String → Bool) :
    (search matcher nameOnly latestOnly installedOnly index isC isI).isSome =
      true := by
  unfold search
  simp only []
  have hnames : ∀ n ∈ pySort (searchNames matcher nameOnly index),
      (dictLookup index n).isSome = true := by
    intro n hn
    have h1 : n ∈ searchNames matcher nameOnly index :=
      (pySort_perm _).mem_iff.mp hn
    have h2 : n ∈ index.map Prod.fst :=
      (searchNames_sublist matcher nameOnly index).subset h1
    exact (dictLookup_isSome_iff index n).mpr h2
  rcases hb : buildResult index isC isI installedOnly
      (pySort (searchNames matcher nameOnly index)) with _ | result
  · exfalso
    have hbs := buildResult_isSome index isC isI installedOnly _ hnames
    rw [hb] at hbs
    cases hbs
  · by_cases hl : latestOnly = true
    · rw [hl]
      simp only [if_true]
      have hres : ∀ n ∈ result.map Prod.fst,
          (dictLookup index n).isSome = true := by
        intro n hn
        exact hnames n
          ((buildResult_sublist index isC isI installedOnly _ result hb).subset hn)
      have hgo := getLatestGo_isSome (dictLookup index) (result.map Prod.fst)
        [] hres
      rcases hw : getLatest (dictLookup index) (result.map Prod.fst)
        with _ | wanted
      · exfalso
        unfold getLatest at hw
        rcases hgo2 : getLatestGo (dictLookup index) (result.map Prod.fst) []
          with _ | acc
        · rw [hgo2] at hgo
          cases hgo
        · rw [hgo2] at hw
          cases hw
      · simp [hw]
    · rw [Bool.not_eq_true] at hl
      rw [hl]
      simp

/-- C8: `expand_name` returns the input unchanged when it is already an
identity of the index; otherwise it runs `search` with
`name_only = latest_only = true` (passing `installed_only` through) and
returns the unique match's identity when that search yields exactly one
match, and in every other case returns the original input; it never
raises. -/
theorem c8_expand_name (compile : String → String → Bool)
    (index : List (String × Entry)) (isC isI : String → Bool)
    (name : String) (installedOnly : Bool) :
    ((dictLookup index name).isSome = true →
      expandName compile index isC isI name installedOnly = some name) ∧
    (dictLookup index name = none →
      ∀ res, search (compile name) true true installedOnly index isC isI =
          some res →
        (∀ n a, res = [(n, a)] →
          expandName compile index isC isI name installedOnly = some n) ∧
        (res.length ≠ 1 →
          expandName compile index isC isI name installedOnly = some name)) ∧
    (expandName compile index isC isI name installedOnly).isSome = true := by
  refine ⟨?_, ?_, ?_⟩
  · intro h
    unfold expandName
    rcases he : dictLookup index name with _ | e
    · rw [he] at h
      cases h
    · rfl
  · intro he res hres
    constructor
    · intro n a hr
      subst hr
      unfold expandName
      rw [he, hres]
    · intro hlen
      unfold expandName
      rw [he, hres]
      rcases res with _ | ⟨⟨n, a⟩, rest⟩
      · rfl
      · rcases rest with _ | ⟨q, rest'⟩
        · exact absurd rfl hlen
        · rfl
  · unfold expandName
    rcases he : dictLookup index name with _ | e
    · rcases hs : search (compile name) true true installedOnly index isC isI
        with _ | res
      · exfalso
        have hh := search_isSome (compile name) true true installedOnly index
          isC isI
        rw [hs] at hh
        cases hh
      · rcases res with _ | ⟨⟨n, a⟩, rest⟩
        · rfl
        · rcases rest with _ | ⟨q, rest'⟩ <;> rfl
    · rfl

/-- C8 witness: on the index `indexQ`, `q-1` expands to itself, and the
non-identity `q` expands through the search (whose single latest match is
`q-2`) to `q-2`. -/
theorem c8_witness :
    (dictLookup indexQ "q-1").isSome = true ∧
    expandName compileAll indexQ nothingThere nothingThere "q-1" false =
      some "q-1" ∧
    dictLookup indexQ "q" = none ∧
    search (compileAll "q") true true false indexQ nothingThere nothingThere =
      some [("q-2", ⟨false, false, entryQ2⟩)] ∧
    expandName compileAll indexQ nothingThere nothingThere "q" false =
      some "q-2" ∧
    (expandName compileAll indexQ nothingThere nothingThere "q" false).isSome =
      true := by
  have h1 := (c8_expand_name compileAll indexQ nothingThere nothingThere
    "q-1" false).1 (by decide)
  have h2 := ((c8_expand_name compileAll indexQ nothingThere nothingThere
    "q" false).2.1 (by decide) [("q-2", ⟨false, false, entryQ2⟩)]
    (by decide)).1 "q-2" ⟨false, false, entryQ2⟩ rfl
  have h3 := (c8_expand_name compileAll indexQ nothingThere nothingThere
    "q" false).2.2
  exact ⟨by decide, h1, by decide, by decide, h2, h3⟩

/-! ### C9: the latest filter runs on the installed-filtered candidates -/

theorem buildResult_installed (index : List (String × Entry))
    (isC isI : String → Bool) :
    ∀ (names : List String) (r : List (String × Ann)),
      buildResult index isC isI true names = some r →
      ∀ p ∈ r, isI p.1 = true := by
  intro names
  induction names with
  | nil =>
    intro r h
    injection h with h1
    subst h1
    intro p hp
    cases hp
  | cons n rest ih =>
    intro r h
    unfold buildResult at h
    by_cases hio : (true && !(isI n)) = true
    · rw [if_pos hio] at h
      exact ih r h
    · rw [if_neg hio] at h
      have hn : isI n = true := by
        rcases hv : isI n with _ | _
        · exact absurd (by rw [hv]; rfl) hio
        · rfl
      rcases he : dictLookup index n with _ | e
      · rw [he] at h
        cases h
      · rw [he] at h
        rcases hb : buildResult index isC isI true rest with _ | r'
        · rw [hb] at h
          cases h
        · rw [hb] at h
          injection h with h1
          subst h1
          intro p hp
          rcases List.mem_cons.mp hp with rfl | hp'
          · exact hn
          · exact ih r' hb p hp'

/-- C9: with both `installed_only` and `latest_only` set, `search` computes
the latest-version selection over exactly the candidate rows that already
passed the installed filter (every candidate, hence every result row, has
installed status true, and `_get_latest` receives only those names); on the
concrete index `indexQ`, where package `q`'s highest-vercode version `q-2`
is not installed but the lower `q-1` is, the result contains `q-1` rather
than dropping the package. -/
theorem c9_latest_over_installed :
    (∀ (matcher : String → Bool) (nameOnly : Bool)
       (index : List (String × Entry)) (isC isI : String → Bool)
       (res : List (String × Ann)),
       search matcher nameOnly true true index isC isI = some res →
       (∃ cand wanted,
         buildResult index isC isI true
           (pySort (searchNames matcher nameOnly index)) = some cand ∧
         (∀ p ∈ cand, isI p.1 = true) ∧
         getLatest (dictLookup index) (cand.map Prod.fst) = some wanted ∧
         res = cand.filter (fun i => wanted.contains i.1)) ∧
       (∀ p ∈ res, isI p.1 = true)) ∧
    (installedQ1 "q-2" = false ∧ entryQ1.vercode < entryQ2.vercode ∧
     search matchAll false true true indexQ nothingThere installedQ1 =
       some [("q-1", ⟨false, true, entryQ1⟩)]) := by
  constructor
  · intro matcher nameOnly index isC isI res h
    unfold search at h
    simp only [] at h
    rcases hb : buildResult index isC isI true
        (pySort (searchNames matcher nameOnly index)) with _ | cand
    · rw [hb] at h
      cases h
    · rw [hb] at h
      simp only [if_true] at h
      rcases hw : getLatest (dictLookup index) (cand.map Prod.fst)
        with _ | wanted
      · rw [hw] at h
        cases h
      · rw [hw] at h
        injection h with h1
        subst h1
        have hinst := buildResult_installed index isC isI _ cand hb
        refine ⟨⟨cand, wanted, rfl, hinst, hw, rfl⟩, ?_⟩
        intro p hp
        exact hinst p (List.mem_of_mem_filter hp)
  · exact ⟨rfl, by decide, by decide⟩

/-- C9 witness: the general part applied to the concrete scenario. -/
theorem c9_witness :
    search matchAll false true true indexQ nothingThere installedQ1 =
      some [("q-1", ⟨false, true, entryQ1⟩)] ∧
    (∃ cand wanted,
      buildResult indexQ nothingThere installedQ1 true
        (pySort (searchNames matchAll false indexQ)) = some cand ∧
      (∀ p ∈ cand, installedQ1 p.1 = true) ∧
      getLatest (dictLookup indexQ) (cand.map Prod.fst) = some wanted ∧
      [("q-1", (⟨false, true, entryQ1⟩ : Ann))] =
        cand.filter (fun i => wanted.contains i.1)) ∧
    (∀ p ∈ [("q-1", (⟨false, true, entryQ1⟩ : Ann))], installedQ1 p.1 = true) := by
  have h := (c9_latest_over_installed.1 matchAll false indexQ nothingThere
    installedQ1 [("q-1", ⟨false, true, entryQ1⟩)] (by decide))
  exact ⟨by decide, h.1, h.2⟩

/-! ### C2: latest-version selection and its tie-break -/

theorem find?_key_isSome_iff (d : List (String × α)) (k : String) :
    (d.find? (fun p => p.1 = k)).isSome = true ↔ k ∈ d.map Prod.fst := by
  rw [← dictLookup_isSome_iff]
  unfold dictLookup
  rcases h : d.find? (fun p => p.1 = k) with _ | q <;> simp [h]

theorem mem_dictInsert {d : List (String × α)} {k : String} {w : α}
    {p : String} {v : α} :
    (p, v) ∈ dictInsert d k w ↔
      ((p, v) ∈ d ∧ p ≠ k) ∨ (p = k ∧ v = w) := by
  unfold dictInsert
  by_cases h : (d.find? (fun q => q.1 = k)).isSome = true
  · rw [if_pos h]
    constructor
    · intro hm
      rcases List.mem_map.mp hm with ⟨q, hq, hf⟩
      by_cases hqk : q.1 = k
      · rw [if_pos hqk] at hf
        obtain ⟨h1, h2⟩ := Prod.ext_iff.mp hf
        exact Or.inr ⟨h1.symm, h2.symm⟩
      · rw [if_neg hqk] at hf
        subst hf
        exact Or.inl ⟨hq, hqk⟩
    · intro hm
      rcases hm with ⟨hmem, hne⟩ | ⟨hpk, hvw⟩
      · exact List.mem_map.mpr ⟨(p, v), hmem, by rw [if_neg hne]⟩
      · subst hpk
        subst hvw
        have hk := (find?_key_isSome_iff d p).mp h
        rcases List.mem_map.mp hk with ⟨q, hq, hq1⟩
        exact List.mem_map.mpr ⟨q, hq, by rw [if_pos hq1]⟩
  · rw [if_neg h]
    rw [List.mem_append]
    constructor
    · intro hm
      rcases hm with hd | hs
      · refine Or.inl ⟨hd, ?_⟩
        intro hpk
        subst hpk
        exact h ((find?_key_isSome_iff d p).mpr
          (List.mem_map.mpr ⟨(p, v), hd, rfl⟩))
      · have heq := List.mem_singleton.mp hs
        obtain ⟨h1, h2⟩ := Prod.ext_iff.mp heq
        exact Or.inr ⟨h1, h2⟩
    · intro hm
      rcases hm with ⟨hmem, _⟩ | ⟨hpk, hvw⟩
      · exact Or.inl hmem
      · subst hpk
        subst hvw
        exact Or.inr (List.mem_singleton.mpr rfl)

theorem dictInsert_keys_nodup {d : List (String × α)} {k : String} {w : α}
    (h : (d.map Prod.fst).Nodup) :
    ((dictInsert d k w).map Prod.fst).Nodup := by
  unfold dictInsert
  by_cases hf : (d.find? (fun q => q.1 = k)).isSome = true
  · rw [if_pos hf]
    have hmap : (d.map (fun q => if q.1 = k then (k, w) else q)).map Prod.fst =
        d.map Prod.fst := by
      rw [List.map_map]
      apply List.map_congr_left
      intro q _
      by_cases hqk : q.1 = k
      · simp [hqk]
      · simp [hqk]
    rw [hmap]
    exact h
  · rw [if_neg hf]
    rw [List.map_append, List.nodup_append]
    refine ⟨h, by simp, ?_⟩
    intro a ha hb
    simp only [List.map_cons, List.map_nil, List.mem_singleton] at hb
    subst hb
    exact hf ((find?_key_isSome_iff d a).mpr ha)

theorem dictLookup_eq_of_mem_nodup {d : List (String × α)} {k : String}
    {v : α} (hnd : (d.map Prod.fst).Nodup) (hm : (k, v) ∈ d) :
    dictLookup d k = some v := by
  induction d with
  | nil => cases hm
  | cons p d ih =>
    rw [List.map_cons, List.nodup_cons] at hnd
    obtain ⟨hp, hnd'⟩ := hnd
    rcases List.mem_cons.mp hm with heq | hm'
    · subst heq
      rw [dictLookup_cons]
      simp
    · rw [dictLookup_cons]
      by_cases hpk : p.1 = k
      · exfalso
        exact hp (hpk ▸ List.mem_map.mpr ⟨(k, v), hm', rfl⟩)
      · rw [if_neg hpk]
        exact ih hnd' hm'

theorem latestInv_ub (info : String → Option Entry) (done : List String)
    (acc : List (String × String × Int))
    (hinv : LatestInv info done acc) (p nm : String) (vc : Int)
    (hm : (p, (nm, vc)) ∈ acc) :
    ∀ m ∈ done, ∀ em, info m = some em → em.package = p →
      em.vercode ≤ vc := by
  intro m hm' em hem hpk
  obtain ⟨e, he, hep, hev, l₁, l₂, hdone, h1, h2⟩ := hinv.1 p nm vc hm
  subst hdone
  rcases List.mem_append.mp hm' with hm1 | hm2
  · exact h1 m hm1 em hem hpk
  · rcases List.mem_cons.mp hm2 with heq | hm3
    · subst heq
      rw [hem] at he
      injection he with he'
      rw [he', hev]
    · exact le_of_lt (h2 m hm3 em hem hpk)

theorem latestInv_insert (info : String → Option Entry) (done : List String)
    (acc : List (String × String × Int)) (n : String) (i : Entry)
    (hi : info n = some i)
    (hinv : LatestInv info done acc)
    (hub : ∀ m ∈ done, ∀ em, info m = some em →
      em.package = i.package → em.vercode ≤ i.vercode) :
    LatestInv info (done ++ [n]) (dictInsert acc i.package (n, i.vercode)) := by
  obtain ⟨h1, h2, h3⟩ := hinv
  refine ⟨?_, ?_, dictInsert_keys_nodup h3⟩
  · intro p nm vc hm
    rcases mem_dictInsert.mp hm with ⟨hold, hne⟩ | ⟨hpk, hval⟩
    · obtain ⟨e, he, hep, hev, l₁, l₂, hdone, hub1, hub2⟩ := h1 p nm vc hold
      refine ⟨e, he, hep, hev, l₁, l₂ ++ [n], by simp [hdone], hub1, ?_⟩
      intro m hm' em hem hpk
      rcases List.mem_append.mp hm' with hm1 | hm2
      · exact hub2 m hm1 em hem hpk
      · have hmn : m = n := List.mem_singleton.mp hm2
        subst hmn
        rw [hem] at hi
        injection hi with hi'
        exfalso
        exact hne (by rw [← hpk, ← hi'])
    · injection hval with hn hv
      subst hpk
      subst hn
      refine ⟨i, hi, rfl, hv.symm, done, [], by simp, ?_, by simp⟩
      intro m hm' em hem hpk
      rw [hv]
      exact hub m hm' em hem hpk
  · intro m hm' em hem
    rcases List.mem_append.mp hm' with hm1 | hm2
    · obtain ⟨nm, vc, hacc⟩ := h2 m hm1 em hem
      by_cases hpk : em.package = i.package
      · exact ⟨n, i.vercode, mem_dictInsert.mpr (Or.inr ⟨hpk, rfl⟩)⟩
      · exact ⟨nm, vc, mem_dictInsert.mpr (Or.inl ⟨hacc, hpk⟩)⟩
    · have hmn : m = n := List.mem_singleton.mp hm2
      rw [hmn] at hem
      rw [hem] at hi
      injection hi with hi'
      rw [hi']
      exact ⟨n, i.vercode, mem_dictInsert.mpr (Or.inr ⟨rfl, rfl⟩)⟩

theorem getLatestGo_inv (info : String → Option Entry) :
    ∀ (names done : List String) (acc : List (String × String × Int)),
      LatestInv info done acc →
      (∀ n ∈ names, (info n).isSome = true) →
      ∃ acc', getLatestGo info names acc = some acc' ∧
        LatestInv info (done ++ names) acc' := by
  intro names
  induction names with
  | nil =>
    intro done acc hinv _
    exact ⟨acc, rfl, by simpa using hinv⟩
  | cons n rest ih =>
    intro done acc hinv h
    have hrest : ∀ m ∈ rest, (info m).isSome = true :=
      fun m hm => h m (List.mem_cons_of_mem _ hm)
    have happ : (done ++ [n]) ++ rest = done ++ n :: rest := by
      rw [List.append_assoc]
      rfl
    rcases hi : info n with _ | i
    · exfalso
      have hn := h n (List.mem_cons_self _ _)
      rw [hi] at hn
      cases hn
    · rcases hl : dictLookup acc i.package with _ | l
      · -- fresh package: insert
        have hub : ∀ m ∈ done, ∀ em, info m = some em →
            em.package = i.package → em.vercode ≤ i.vercode := by
          intro m hm' em hem hpk
          exfalso
          obtain ⟨nm, vc, hacc⟩ := hinv.2.1 m hm' em hem
          have : (dictLookup acc em.package).isSome = true :=
            (dictLookup_isSome_iff acc em.package).mpr
              (List.mem_map.mpr ⟨(em.package, (nm, vc)), hacc, rfl⟩)
          rw [hpk, hl] at this
          cases this
        obtain ⟨acc', hgo, hinv'⟩ := ih (done ++ [n])
          (dictInsert acc i.package (n, i.vercode))
          (latestInv_insert info done acc n i hi hinv hub) hrest
        refine ⟨acc', ?_, by rwa [happ] at hinv'⟩
        unfold getLatestGo
        simp only [hi, hl]
        exact hgo
      · by_cases hv : i.vercode < l.2
        · -- dominated: skip
          have hinv' : LatestInv info (done ++ [n]) acc := by
            obtain ⟨h1, h2, h3⟩ := hinv
            refine ⟨?_, ?_, h3⟩
            · intro p nm vc hm
              obtain ⟨e, he, hep, hev, l₁, l₂, hdone, hub1, hub2⟩ :=
                h1 p nm vc hm
              refine ⟨e, he, hep, hev, l₁, l₂ ++ [n],
                by simp [hdone], hub1, ?_⟩
              intro m hm' em hem hpk
              rcases List.mem_append.mp hm' with hm1 | hm2
              · exact hub2 m hm1 em hem hpk
              · have hmn : m = n := List.mem_singleton.mp hm2
                rw [hmn] at hem
                rw [hem] at hi
                injection hi with hi'
                -- em.package = p and the accumulator entry for p is l
                have hip : i.package = p := by rw [← hi']; exact hpk
                have hlook : dictLookup acc p = some (nm, vc) :=
                  dictLookup_eq_of_mem_nodup h3 hm
                rw [hip] at hl
                rw [hl] at hlook
                injection hlook with hlook'
                have hvc : l.2 = vc := by rw [hlook']
                rw [hi', ← hvc]
                exact hv
            · intro m hm' em hem
              rcases List.mem_append.mp hm' with hm1 | hm2
              · exact h2 m hm1 em hem
              · have hmn : m = n := List.mem_singleton.mp hm2
                rw [hmn] at hem
                rw [hem] at hi
                injection hi with hi'
                rw [hi']
                have hmem : (i.package, (l.1, l.2)) ∈ acc := by
                  simpa using dictLookup_eq_some_mem hl
                exact ⟨l.1, l.2, hmem⟩
          obtain ⟨acc', hgo, hinv''⟩ := ih (done ++ [n]) acc hinv' hrest
          refine ⟨acc', ?_, by rwa [happ] at hinv''⟩
          unfold getLatestGo
          simp only [hi, hl]
          rw [if_pos hv]
          exact hgo
        · -- new maximum (or tie): overwrite
          have hub : ∀ m ∈ done, ∀ em, info m = some em →
              em.package = i.package → em.vercode ≤ i.vercode := by
            intro m hm' em hem hpk
            have hmem : (i.package, (l.1, l.2)) ∈ acc := by
              simpa using dictLookup_eq_some_mem hl
            have := latestInv_ub info done acc hinv i.package l.1 l.2 hmem
              m hm' em hem hpk
            exact le_trans this (not_lt.mp hv)
          obtain ⟨acc', hgo, hinv'⟩ := ih (done ++ [n])
            (dictInsert acc i.package (n, i.vercode))
            (latestInv_insert info done acc n i hi hinv hub) hrest
          refine ⟨acc', ?_, by rwa [happ] at hinv'⟩
          unfold getLatestGo
          simp only [hi, hl]
          rw [if_neg hv]
          exact hgo

theorem getLatest_spec (info : String → Option Entry) (names res : List String)
    (h : getLatest info names = some res)
    (hs : ∀ n ∈ names, (info n).isSome = true) :
    (∀ n ∈ res, n ∈ names) ∧
    (∀ n₁ ∈ res, ∀ n₂ ∈ res, ∀ e₁ e₂, info n₁ = some e₁ → info n₂ = some e₂ →
       e₁.package = e₂.package → n₁ = n₂) ∧
    (∀ m ∈ names, ∀ em, info m = some em →
       ∃ n ∈ res, ∃ en, info n = some en ∧ en.package = em.package) ∧
    (∀ n ∈ res, ∀ en, info n = some en →
       ∃ l₁ l₂, names = l₁ ++ n :: l₂ ∧
         (∀ m ∈ l₁, ∀ em, info m = some em → em.package = en.package →
            em.vercode ≤ en.vercode) ∧
         (∀ m ∈ l₂, ∀ em, info m = some em → em.package = en.package →
            em.vercode < en.vercode)) := by
  have hinv0 : LatestInv info [] [] := by
    refine ⟨?_, ?_, ?_⟩
    · intro p nm vc hm
      cases hm
    · intro m hm
      cases hm
    · simp
  obtain ⟨acc', hgo, hinv⟩ := getLatestGo_inv info names [] [] hinv0 hs
  rw [List.nil_append] at hinv
  unfold getLatest at h
  rw [hgo] at h
  injection h with h1
  subst h1
  obtain ⟨hp1, hp2, hp3⟩ := hinv
  refine ⟨?_, ?_, ?_, ?_⟩
  · intro n hn
    rcases List.mem_map.mp hn with ⟨⟨p, nm, vc⟩, hacc, heq⟩
    simp only at heq
    subst heq
    obtain ⟨e, he, hep, hev, l₁, l₂, hdone, _, _⟩ := hp1 p nm vc hacc
    rw [hdone]
    exact List.mem_append.mpr (Or.inr (List.mem_cons_self _ _))
  · intro n₁ hn₁ n₂ hn₂ e₁ e₂ he₁ he₂ hpk
    rcases List.mem_map.mp hn₁ with ⟨⟨p₁, nm₁, vc₁⟩, hacc₁, heq₁⟩
    rcases List.mem_map.mp hn₂ with ⟨⟨p₂, nm₂, vc₂⟩, hacc₂, heq₂⟩
    simp only at heq₁ heq₂
    subst heq₁
    subst heq₂
    obtain ⟨e₁', he₁', hep₁, _, _⟩ := hp1 p₁ nm₁ vc₁ hacc₁
    obtain ⟨e₂', he₂', hep₂, _, _⟩ := hp1 p₂ nm₂ vc₂ hacc₂
    rw [he₁'] at he₁
    injection he₁ with hee₁
    rw [he₂'] at he₂
    injection he₂ with hee₂
    have hp₁₂ : p₁ = p₂ := by
      rw [← hep₁, ← hep₂, hee₁, hee₂]
      exact hpk
    subst hp₁₂
    have hl₁ : dictLookup acc' p₁ = some (nm₁, vc₁) :=
      dictLookup_eq_of_mem_nodup hp3 hacc₁
    have hl₂ : dictLookup acc' p₁ = some (nm₂, vc₂) :=
      dictLookup_eq_of_mem_nodup hp3 hacc₂
    rw [hl₁] at hl₂
    have hl₃ := Option.some.inj hl₂
    exact congrArg Prod.fst hl₃
  · intro m hm em hem
    obtain ⟨nm, vc, hacc⟩ := hp2 m hm em hem
    obtain ⟨e, he, hep, _, _⟩ := hp1 em.package nm vc hacc
    exact ⟨nm, List.mem_map.mpr ⟨(em.package, (nm, vc)), hacc, rfl⟩,
      e, he, hep⟩
  · intro n hn en hen
    rcases List.mem_map.mp hn with ⟨⟨p, nm, vc⟩, hacc, heq⟩
    simp only at heq
    subst heq
    obtain ⟨e, he, hep, hev, l₁, l₂, hdone, hub1, hub2⟩ := hp1 p nm vc hacc
    rw [he] at hen
    injection hen with hen'
    refine ⟨l₁, l₂, hdone, ?_, ?_⟩
    · intro m hm' em hem hpk
      exact hub1 m hm' em hem (by rw [hpk, ← hen', hep]) |>.trans
        (by rw [← hev, ← hen'])
    · intro m hm' em hem hpk
      exact lt_of_lt_of_le (hub2 m hm' em hem (by rw [hpk, ← hen', hep]))
        (by rw [← hev, ← hen'])

/-- C2, counterexample: the claim "when two entries of the same package
share the maximum vercode, the first-seen entry in iteration order is the
one kept" is false.  On the index holding `p-1` and `p-2` — same package,
equal `vercode` — the candidate iteration order is `p-1, p-2` (sorted), yet
`search(latest_only=true)` keeps `p-2`: the loop's strict `<` test lets a
tying later entry overwrite the stored one, so the last-seen entry wins. -/
theorem c2_counterexample :
    buildResult indexTie nothingThere nothingThere false
      (pySort (searchNames matchAll false indexTie)) =
      some [("p-1", ⟨false, false, entryP1⟩),
            ("p-2", ⟨false, false, entryP2⟩)] ∧
    entryP1.package = entryP2.package ∧
    entryP1.vercode = entryP2.vercode ∧
    search matchAll false true false indexTie nothingThere nothingThere =
      some [("p-2", ⟨false, false, entryP2⟩)] ∧
    ("p-1" : String) ≠ "p-2" := by
  refine ⟨by decide, by decide, by decide, by decide, by decide⟩

/-- C2, amended: for every result set of `search` with `latest_only`, the
result is the candidate list (sorted, status-filtered) restricted to the
names selected by `_get_latest`; that selection keeps exactly one entry per
package present among the candidates, its `vercode` weakly bounds every
same-package candidate before it and strictly bounds every one after it in
iteration order — i.e. the survivor is the last-seen entry attaining its
group's maximum `vercode`, ties being resolved last-seen-wins (not
first-seen-wins). -/
theorem c2_latest_last_tie (matcher : String → Bool)
    (nameOnly installedOnly : Bool) (index : List (String × Entry))
    (isC isI : String → Bool) (res : List (String × Ann))
    (h : search matcher nameOnly true installedOnly index isC isI =
      some res) :
    ∃ cand wanted,
      buildResult index isC isI installedOnly
        (pySort (searchNames matcher nameOnly index)) = some cand ∧
      getLatest (dictLookup index) (cand.map Prod.fst) = some wanted ∧
      res = cand.filter (fun i => wanted.contains i.1) ∧
      (∀ n, n ∈ res.map Prod.fst ↔ n ∈ wanted) ∧
      (∀ n ∈ wanted, n ∈ cand.map Prod.fst) ∧
      (∀ n₁ ∈ wanted, ∀ n₂ ∈ wanted, ∀ e₁ e₂,
         dictLookup index n₁ = some e₁ → dictLookup index n₂ = some e₂ →
         e₁.package = e₂.package → n₁ = n₂) ∧
      (∀ m ∈ cand.map Prod.fst, ∀ em, dictLookup index m = some em →
         ∃ n ∈ wanted, ∃ en, dictLookup index n = some en ∧
           en.package = em.package) ∧
      (∀ n ∈ wanted, ∀ en, dictLookup index n = some en →
         ∃ l₁ l₂, cand.map Prod.fst = l₁ ++ n :: l₂ ∧
           (∀ m ∈ l₁, ∀ em, dictLookup index m = some em →
              em.package = en.package → em.vercode ≤ en.vercode) ∧
           (∀ m ∈ l₂, ∀ em, dictLookup index m = some em →
              em.package = en.package → em.vercode < en.vercode)) := by
  unfold search at h
  simp only [] at h
  rcases hb : buildResult index isC isI installedOnly
      (pySort (searchNames matcher nameOnly index)) with _ | cand
  · rw [hb] at h
    cases h
  · rw [hb] at h
    simp only [if_true] at h
    rcases hw : getLatest (dictLookup index) (cand.map Prod.fst)
      with _ | wanted
    · rw [hw] at h
      cases h
    · rw [hw] at h
      injection h with h1
      subst h1
      have hnames : ∀ n ∈ cand.map Prod.fst,
          (dictLookup index n).isSome = true := by
        intro n hn
        have hn1 : n ∈ pySort (searchNames matcher nameOnly index) :=
          (buildResult_sublist index isC isI installedOnly _ cand hb).subset hn
        have hn2 : n ∈ searchNames matcher nameOnly index :=
          (pySort_perm _).mem_iff.mp hn1
        exact (dictLookup_isSome_iff index n).mpr
          ((searchNames_sublist matcher nameOnly index).subset hn2)
      obtain ⟨hs1, hs2, hs3, hs4⟩ :=
        getLatest_spec (dictLookup index) (cand.map Prod.fst) wanted hw hnames
      refine ⟨cand, wanted, rfl, hw, rfl, ?_, hs1, hs2, hs3, hs4⟩
      intro n
      constructor
      · intro hn
        rcases List.mem_map.mp hn with ⟨row, hrow, heq⟩
        subst heq
        have hf := List.mem_filter.mp hrow
        simpa using hf.2
      · intro hn
        rcases List.mem_map.mp (hs1 n hn) with ⟨row, hrow, heq⟩
        subst heq
        exact List.mem_map.mpr
          ⟨row, List.mem_filter.mpr ⟨hrow, by simpa using hn⟩, rfl⟩

/-- C2 witness: the amended theorem applied to the tie index; the selected
name is `p-2`, the last of the two tying candidates. -/
theorem c2_witness :
    ∃ cand wanted,
      buildResult indexTie nothingThere nothingThere false
        (pySort (searchNames matchAll false indexTie)) = some cand ∧
      getLatest (dictLookup indexTie) (cand.map Prod.fst) = some wanted ∧
      [("p-2", (⟨false, false, entryP2⟩ : Ann))] =
        cand.filter (fun i => wanted.contains i.1) ∧
      (∀ n, n ∈ ([("p-2", (⟨false, false, entryP2⟩ : Ann))].map Prod.fst) ↔
        n ∈ wanted) ∧
      (∀ n ∈ wanted, n ∈ cand.map Prod.fst) ∧
      (∀ n₁ ∈ wanted, ∀ n₂ ∈ wanted, ∀ e₁ e₂,
         dictLookup indexTie n₁ = some e₁ → dictLookup indexTie n₂ = some e₂ →
         e₁.package = e₂.package → n₁ = n₂) ∧
      (∀ m ∈ cand.map Prod.fst, ∀ em, dictLookup indexTie m = some em →
         ∃ n ∈ wanted, ∃ en, dictLookup indexTie n = some en ∧
           en.package = em.package) ∧
      (∀ n ∈ wanted, ∀ en, dictLookup indexTie n = some en →
         ∃ l₁ l₂, cand.map Prod.fst = l₁ ++ n :: l₂ ∧
           (∀ m ∈ l₁, ∀ em, dictLookup indexTie m = some em →
              em.package = en.package → em.vercode ≤ en.vercode) ∧
           (∀ m ∈ l₂, ∀ em, dictLookup indexTie m = some em →
              em.package = en.package → em.vercode < en.vercode)) :=
  c2_latest_last_tie matchAll false false indexTie nothingThere nothingThere
    [("p-2", ⟨false, false, entryP2⟩)] (by decide)

end ApkGet
